import Mathlib

/-!
A shallow embedding of the hybrid dynamic vector index implemented in
src/src/dynamic_disk_index.cpp (class diskann::DynamicDiskIndex, with its
header src/include/dynamic_disk_index.h).

Modelling conventions:
* External labels (LabelT = uint32_t) and internal disk ids (uint32_t) are
  natural numbers; casts from wider integers keep the source's truncation
  as an explicit `% 2 ^ 32`.
* C++ float distances are modelled as `WithTop ℚ`; the sentinel
  std::numeric_limits<float>::max() (used for padding and for unfilled
  beam-search slots) is modelled as `⊤`.
* The two external collaborators (the Vamana memory index and the
  PQFlashIndex disk index) are out of scope per the design; their outputs
  (search results, get_label answers, insert_point return codes, point
  counts, rebuilt label tables) enter the model as explicit oracle records.
* std::sort (line 287) guarantees only a distance-sorted permutation of its
  input; the order of equal-distance elements is unspecified by the C++
  standard.  It is therefore embedded relationally by the predicate
  `sortOk`, and theorems about search quantify over every admissible
  sorted list.
-/

namespace DiskAnnDyn

/-- Distances: C++ float; FLT_MAX sentinel modelled as ⊤. -/
abbrev Dist := WithTop ℚ

/-- One entry of the combined search candidate list: struct Result
with fields label and dist (dynamic_disk_index.cpp lines 236-242). -/
structure Cand where
  label : ℕ
  dist : Dist
deriving DecidableEq

/-- The mutable state of a DynamicDiskIndex that the claims are about
(fields of the class in dynamic_disk_index.h lines 32-46):
_deleted_labels, _disk_label_to_id, _disk_deleted_ids, whether _disk_index
is non-null, the memory index's current point count (the class holds the
index itself; only get_num_points feeds back into this code), and the
construction-time _mem_index_threshold. -/
structure DDIState where
  deletedLabels : Finset ℕ
  diskLabelToId : ℕ → Option ℕ
  diskDeletedIds : Finset ℕ
  diskLoaded : Bool
  memNum : ℕ
  threshold : ℕ

/-- Oracle for one load_disk_index call (lines 96-155): whether
PQFlashIndex::load returned 0, and the label recorded for each internal
row i — from the sidecar labels file when its line count matches, else
from get_label(i) with failed reads as `none` (lines 145-154). -/
structure LoadOracle where
  ok : Bool
  entries : List (Option ℕ)

/-- robin_map bracket assignment map[k] = v: overwrite the key. -/
def mapUpd (m : ℕ → Option ℕ) (k v : ℕ) : ℕ → Option ℕ :=
  fun x => if x = k then some v else m x

/-- The loop of load_disk_index that fills _disk_label_to_id: for each row
index i with a readable label L it assigns map[L] = i (lines 135-137 for
the labels-file strategy, lines 146-153 for the get_label fallback; a
`none` entry is a row skipped by the catch). -/
def buildLabelMapAux (m : ℕ → Option ℕ) (i : ℕ) : List (Option ℕ) → (ℕ → Option ℕ)
  | [] => m
  | none :: rest => buildLabelMapAux m (i + 1) rest
  | some L :: rest => buildLabelMapAux (mapUpd m L i) (i + 1) rest

/-- _disk_label_to_id as rebuilt by a successful load_disk_index. -/
def buildLabelMap (entries : List (Option ℕ)) : ℕ → Option ℕ :=
  buildLabelMapAux (fun _ => none) 0 entries

/-- State after the constructor (lines 20-89): all tombstone containers
start empty, the memory index starts empty, and load_disk_index either
builds the map (load succeeded) or leaves _disk_index null and the map
empty (lines 101-111). -/
def initState (threshold0 : ℕ) (lo : LoadOracle) : DDIState :=
  { deletedLabels := ∅
    diskLabelToId := if lo.ok then buildLabelMap lo.entries else fun _ => none
    diskDeletedIds := ∅
    diskLoaded := lo.ok
    memNum := 0
    threshold := threshold0 }

/-- Oracle for one merge call (lines 318-549): whether build_disk_index
returned 0, the outcome of the subsequent load_disk_index, and the memory
index's point count after consolidate_deletes (relevant only when the
build throws and the memory index is not reset). -/
structure MergeOracle where
  buildOk : Bool
  load : LoadOracle
  consolNum : ℕ

/-- DynamicDiskIndex::merge, restricted to the in-memory state (lines
318-549).  On build success: load_disk_index rebuilds _disk_label_to_id
(on a failed reload the old map survives, since the clear at line 115 is
only reached after a successful load), init_empty_index resets the memory
index (line 533), and lines 536-541 clear _disk_deleted_ids and re-insert
map[L] for every deleted L present in the map.  On build failure the
function throws after _disk_index.reset() (line 491), leaving the
tombstone state untouched and the memory index consolidated but not
reset. -/
def merge (st : DDIState) (o : MergeOracle) : DDIState :=
  if o.buildOk then
    let m := if o.load.ok then buildLabelMap o.load.entries else st.diskLabelToId
    { st with
      diskLabelToId := m
      diskLoaded := o.load.ok
      memNum := 0
      diskDeletedIds := st.deletedLabels.biUnion (fun L => (m L).toFinset) }
  else
    { st with diskLoaded := false, memNum := o.consolNum }

/-- The resurrection step at the head of DynamicDiskIndex::insert (lines
161-169): if the label was tombstoned, erase it from _deleted_labels and,
when it is present in _disk_label_to_id, erase its id from
_disk_deleted_ids. -/
def resurrect (st : DDIState) (L : ℕ) : DDIState :=
  if L ∈ st.deletedLabels then
    { st with
      deletedLabels := st.deletedLabels.erase L
      diskDeletedIds :=
        match st.diskLabelToId L with
        | some i => st.diskDeletedIds.erase i
        | none => st.diskDeletedIds }
  else st

/-- Oracle for one insert call: the return code of
_mem_index->insert_point (line 172), the value of get_num_points() read
at line 179, and the oracle for the merge that fires if the threshold is
reached. -/
structure InsertOracle where
  res : Int
  numAfter : ℕ
  mergeOr : MergeOracle

/-- Observable control flow of one insert call (lines 157-187): whether
the failure branch at lines 173-175 logged, whether control reached the
threshold comparison at line 179, and whether a merge was triggered.  The
source has no early return in the failure branch, so the threshold
comparison is reached on every path. -/
structure InsertTrace where
  loggedFailure : Bool
  thresholdChecked : Bool
  triggeredMerge : Bool
deriving DecidableEq

/-- DynamicDiskIndex::insert (lines 157-187): resurrection, then
insert_point (whose non-zero failure is only logged — there is no return
statement at line 175), then the threshold check at lines 178-181, then a
synchronous merge when triggered (lines 184-186). -/
def insert (st : DDIState) (L : ℕ) (o : InsertOracle) : DDIState × InsertTrace :=
  let st1 := resurrect st L
  let st2 := { st1 with memNum := o.numAfter }
  let trigger := decide (st.threshold ≤ st2.memNum)
  let st3 := if trigger then merge st2 o.mergeOr else st2
  (st3, { loggedFailure := o.res != 0, thresholdChecked := true, triggeredMerge := trigger })

/-- DynamicDiskIndex::remove (lines 189-207): insert the label into
_deleted_labels, and when it is present in _disk_label_to_id also insert
its id into _disk_deleted_ids; lazy_delete has no effect on the modelled
state. -/
def remove (st : DDIState) (L : ℕ) : DDIState :=
  { st with
    deletedLabels := Insert.insert L st.deletedLabels
    diskDeletedIds :=
      match st.diskLabelToId L with
      | some i => Insert.insert i st.diskDeletedIds
      | none => st.diskDeletedIds }

/-- One public mutating operation with its collaborator oracle. -/
inductive Ev where
  | ins (L : ℕ) (o : InsertOracle)
  | rem (L : ℕ)
  | mrg (o : MergeOracle)

/-- Apply one public mutating operation. -/
def step (st : DDIState) : Ev → DDIState
  | Ev.ins L o => (insert st L o).1
  | Ev.rem L => remove st L
  | Ev.mrg o => merge st o

/-- Apply a sequence of public mutating operations. -/
def run (st : DDIState) (evs : List Ev) : DDIState := evs.foldl step st

/-- Oracle for one search call: the memory index's tag/distance pairs
(the first mem_count slots written by search_with_tags, line 218), the
id/distance pairs written by cached_beam_search (lines 226-230), and the
disk index's get_label (line 275, `none` when it throws). -/
structure SearchOracle where
  memResults : List (ℕ × Dist)
  diskResults : List (ℕ × Dist)
  getLabel : ℕ → Option ℕ

/-- The k disk result slots the loop at lines 263-284 reads.  When
_disk_index is null the source fills the distances with FLT_MAX (line
233).  When it is loaded, cached_beam_search's contract fills unwritten
slots of the k requested with FLT_MAX, modelled by padding the oracle's
list with (0, ⊤). -/
def diskSlots (st : DDIState) (o : SearchOracle) (k : ℕ) : List (ℕ × Dist) :=
  if st.diskLoaded then
    o.diskResults.take k ++ List.replicate (k - o.diskResults.length) (0, (⊤ : Dist))
  else List.replicate k (0, (⊤ : Dist))

/-- Memory-substrate candidates (lines 248-254): each of the mem_count
results whose label is not in _deleted_labels, in order. -/
def memCandidates (st : DDIState) (mem : List (ℕ × Dist)) : List Cand :=
  mem.filterMap (fun p => if p.1 ∈ st.deletedLabels then none else some ⟨p.1, p.2⟩)

/-- Disk-substrate candidates (lines 263-284): skip FLT_MAX slots, cast
the u64 id down to u32, skip ids in _disk_deleted_ids, resolve the label
via get_label (a throw drops the entry), and skip labels in
_deleted_labels. -/
def diskCandidates (st : DDIState) (o : SearchOracle) (k : ℕ) : List Cand :=
  (diskSlots st o k).filterMap (fun p =>
    if p.2 = (⊤ : Dist) then none
    else
      if p.1 % 2 ^ 32 ∈ st.diskDeletedIds then none
      else
        match o.getLabel (p.1 % 2 ^ 32) with
        | none => none
        | some L => if L ∈ st.deletedLabels then none else some ⟨L, p.2⟩)

/-- The all_results vector before sorting (lines 244-284): memory
candidates followed by disk candidates. -/
def candidateList (st : DDIState) (o : SearchOracle) (k : ℕ) : List Cand :=
  memCandidates st o.memResults ++ diskCandidates st o k

/-- The contract of the std::sort call at line 287 (comparator: dist <
dist): the result is a permutation of the input, pairwise non-decreasing
in distance.  std::sort promises nothing about the relative order of
equal-distance elements, so every list satisfying this predicate is an
admissible behaviour of the source. -/
def sortOk (c sorted : List Cand) : Prop :=
  sorted.Perm c ∧ sorted.Pairwise (fun a b => a.dist ≤ b.dist)

/-- The deduplication loop at lines 289-297: walk the sorted list with a
seen-labels set, keep the first occurrence of each label, and break once
k entries have been collected (cnt is unique_results.size() before the
current push). -/
def dedupTake (k : ℕ) : List Cand → List ℕ → ℕ → List Cand
  | [], _, _ => []
  | c :: rest, seen, cnt =>
    if c.label ∈ seen then dedupTake k rest seen cnt
    else if k ≤ cnt + 1 then [c]
    else c :: dedupTake k rest (c.label :: seen) (cnt + 1)

/-- The output loop at lines 300-308: slot i holds unique_results[i] when
i is in range, else label 0 and FLT_MAX. -/
def padTo (k : ℕ) (uniq : List Cand) : List (ℕ × Dist) :=
  (List.range k).map (fun i =>
    match uniq[i]? with
    | some c => (c.label, c.dist)
    | none => (0, (⊤ : Dist)))

/-- The k output slots of DynamicDiskIndex::search, given one admissible
result of the std::sort call. -/
def searchOut (sorted : List Cand) (k : ℕ) : List (ℕ × Dist) :=
  padTo k (dedupTake k sorted [] 0)

/-- Decidability of the std::sort contract, for concrete evaluation. -/
instance (c sorted : List Cand) : Decidable (sortOk c sorted) := by
  unfold sortOk; infer_instance

/-- The value of std::stoul on one line, base 10: skip leading spaces,
accept an optional sign, then a maximal digit run; no digits or an
out-of-range value raises (modelled as `none`); a minus sign wraps the
value modulo 2 ^ 64 as unsigned long does. -/
def digitsVal (cs : List Char) : Option ℕ :=
  let ds := cs.takeWhile Char.isDigit
  if ds = [] then none
  else
    let v := ds.foldl (fun acc c => 10 * acc + (c.toNat - 48)) 0
    if 2 ^ 64 - 1 < v then none else some v

/-- The whitespace set of the C locale's isspace, used by strtoul. -/
def isSpaceChar (c : Char) : Bool :=
  c == ' ' || c == '\t' || c == '\n' || c == '\r' || c == '\x0b' || c == '\x0c'

/-- std::stoul on a whole line, as used at lines 129 and 452; `none`
models a thrown exception. -/
def stoulOpt (s : String) : Option ℕ :=
  match s.toList.dropWhile isSpaceChar with
  | '+' :: rest => digitsVal rest
  | '-' :: rest => (digitsVal rest).map (fun v => (2 ^ 64 - v % 2 ^ 64) % 2 ^ 64)
  | cs => digitsVal cs

/-- The labels-file reading loop of load_disk_index (lines 125-132): skip
empty lines; push (LabelT)stoul(line) for each line that converts; a
conversion failure is swallowed by its per-line catch and the loop
continues with the remaining lines. -/
def parseLabelsLoad (lines : List String) : List ℕ :=
  lines.filterMap (fun l => if l = "" then none else (stoulOpt l).map (· % 2 ^ 32))

/-- The labels-file reading loop of merge (lines 446-459): skip empty
lines; push (LabelT)stoul(line) for each line that converts; the catch
around the loop body executes `break`, so the first line that fails to
convert discards itself and every later line. -/
def parseLabelsMerge : List String → List ℕ
  | [] => []
  | l :: ls =>
    if l = "" then parseLabelsMerge ls
    else
      match stoulOpt l with
      | some v => v % 2 ^ 32 :: parseLabelsMerge ls
      | none => []

/-- Merge's fix-up of the parsed existing labels against the pre-append
point count (lines 462-473): pad with sequential ids (cast to LabelT)
when too short, truncate with resize when too long. -/
def padLabels (parsed : List ℕ) (initialPoints : ℕ) : List ℕ :=
  if parsed.length < initialPoints then
    parsed ++ (List.range (initialPoints - parsed.length)).map
      (fun j => (parsed.length + j) % 2 ^ 32)
  else parsed.take initialPoints

/-- The tag reads of the label-rewrite loop (lines 484-486) and of the
data-append loop's tag analogue: mem_tags[i] for i in [0, num_active);
an out-of-range index is the `none` branch (in C++ it would read past
the buffer). -/
def mergeTagReads (tags : List ℕ) (numActive : ℕ) : List (Option ℕ) :=
  (List.range numActive).map (fun i => tags[i]?)

/-- The lines written to the labels file by merge (lines 476-488): the
fixed-up existing labels followed by the first num_active memory tags. -/
def mergeLabelsLines (parsed : List ℕ) (initialPoints : ℕ)
    (tags : List ℕ) (numActive : ℕ) : List (Option ℕ) :=
  (padLabels parsed initialPoints).map some ++ mergeTagReads tags numActive

/-- The flat-buffer reads of merge's data-append loop (lines 406-409):
row i is the mem_dim elements at offsets i * mem_dim + j of the buffer
loaded from tmp.data; an out-of-range offset is the `none` branch. -/
def readDataRow (data : List ℤ) (dim i : ℕ) : List (Option ℤ) :=
  (List.range dim).map (fun j => data[i * dim + j]?)

/-- All rows read by the data-append loop: i in [0, num_active). -/
def mergeDataReads (data : List ℤ) (dim numActive : ℕ) : List (List (Option ℤ)) :=
  (List.range numActive).map (readDataRow data dim)

/-- Modelled from the spec: the ROUND_UP macro of the surrounding DiskANN
utils (not under src/), used at line 41 — round x up to the next multiple
of y, here computed as the macro does. -/
def roundUp (x y : ℕ) : ℕ := (x / y + (if x % y = 0 then 0 else 1)) * y

/-- per_point_usage of the constructor (lines 40-45), with the
OVERHEAD_FACTOR and defaults::GRAPH_SLACK_FACTOR constants (defined
outside src/; the spec gives 1.1 and 1.3) and the two sizeof terms kept
symbolic.  C++ double arithmetic is modelled exactly over ℚ. -/
def perPointUsage (overhead slack : ℚ) (dim datasize degree szMutex szPtrdiff : ℕ) : ℚ :=
  overhead * ((roundUp dim 8 : ℕ) * (datasize : ℚ)
    + (degree : ℚ) * 4 * slack + (szMutex : ℚ) + (szPtrdiff : ℚ))

/-- Outcome of the constructor's threshold derivation. -/
inductive CtorResult where
  | ok (threshold : ℕ)
  | configError
deriving DecidableEq

/-- The constructor's threshold logic (lines 24-60): a user threshold of 0
with a positive budget derives the threshold from the budget
(budget_bytes = G * 1024^3 * 0.2, threshold = (size_t)(budget_bytes /
per_point_usage), the cast truncating the positive quotient); a zero
threshold without a positive budget throws ANNException. -/
def ctorThreshold (memThreshold : ℕ) (budgetGb perPoint : ℚ) : CtorResult :=
  if memThreshold = 0 then
    if 0 < budgetGb then
      CtorResult.ok (Int.toNat ⌊budgetGb * 1024 * 1024 * 1024 * (1 / 5) / perPoint⌋)
    else CtorResult.configError
  else CtorResult.ok memThreshold

/-- Injectivity of a label-to-id map: no two labels share an id. -/
def InjMap (m : ℕ → Option ℕ) : Prop :=
  ∀ a b i, m a = some i → m b = some i → a = b

/-- Spec invariant 1: every deleted label present in the disk index has
its id in _disk_deleted_ids. -/
def TombInv (st : DDIState) : Prop :=
  ∀ L ∈ st.deletedLabels, ∀ i, st.diskLabelToId L = some i → i ∈ st.diskDeletedIds

/-- The invariant maintained between public operations: the tombstone
invariant plus injectivity of _disk_label_to_id (which load_disk_index
guarantees by construction, every entry holding a distinct row index). -/
def StateInv (st : DDIState) : Prop := TombInv st ∧ InjMap st.diskLabelToId

/-- A concrete two-entry disk map for the counterexample states: label 7
is row 0, label 9 is row 1. -/
def wMap : ℕ → Option ℕ :=
  fun l => if l = 7 then some 0 else if l = 9 then some 1 else none

/-- A concrete state with a loaded two-point disk index, nothing deleted,
an empty memory index and threshold 10. -/
def cexState : DDIState :=
  { deletedLabels := ∅
    diskLabelToId := wMap
    diskDeletedIds := ∅
    diskLoaded := true
    memNum := 0
    threshold := 10 }

/-- A failing memory-index insert (return code -1) that leaves the point
count below the threshold, so no merge fires. -/
def cexInsertOracle : InsertOracle :=
  { res := -1
    numAfter := 0
    mergeOr := { buildOk := true, load := { ok := true, entries := [] }, consolNum := 0 } }

/-- A failing memory-index insert observed while get_num_points() is at
the threshold (as after a merge whose rebuild threw): return code -1,
count 99. -/
def c3Oracle : InsertOracle :=
  { res := -1
    numAfter := 99
    mergeOr := { buildOk := true, load := { ok := true, entries := [] }, consolNum := 0 } }

/-- A search oracle where the memory index returns nothing and the disk
index returns row 0 at distance 5; get_label resolves row 0 to label 7
and row 1 to label 9. -/
def cexSearchOracle : SearchOracle :=
  { memResults := []
    diskResults := [(0, ((5 : ℚ) : Dist))]
    getLabel := fun i => if i = 0 then some 7 else if i = 1 then some 9 else none }

/-- A search oracle where the memory index returns label 1 at distance 2
and the disk index returns row 0 at the same distance 2; get_label
resolves row 0 to label 2. -/
def tieSearchOracle : SearchOracle :=
  { memResults := [(1, ((2 : ℚ) : Dist))]
    diskResults := [(0, ((2 : ℚ) : Dist))]
    getLabel := fun i => if i = 0 then some 2 else none }

/-- A freshly constructed index whose disk load failed (first run). -/
def emptyInit : DDIState := initState 5 { ok := false, entries := [] }

/-- The deduplication loop only keeps elements of its input, in input
order (it is a sublist). -/
theorem dedupTake_sublist (k : ℕ) (l : List Cand) (seen : List ℕ) (cnt : ℕ) :
    (dedupTake k l seen cnt).Sublist l := by
  induction l generalizing seen cnt with
  | nil => simp [dedupTake]
  | cons c rest ih =>
    simp only [dedupTake]
    by_cases h1 : c.label ∈ seen
    · simp only [if_pos h1]
      exact (ih seen cnt).trans (List.sublist_cons_self c rest)
    · simp only [if_neg h1]
      by_cases h2 : k ≤ cnt + 1
      · simp only [if_pos h2]
        exact List.singleton_sublist.mpr (List.mem_cons_self c rest)
      · simp only [if_neg h2]
        exact List.Sublist.cons₂ c (ih _ _)

/-- No kept element has a label that was already in the seen set. -/
theorem dedupTake_not_seen (k : ℕ) (l : List Cand) (seen : List ℕ) (cnt : ℕ) :
    ∀ c ∈ dedupTake k l seen cnt, c.label ∉ seen := by
  induction l generalizing seen cnt with
  | nil => simp [dedupTake]
  | cons d rest ih =>
    intro c hc
    simp only [dedupTake] at hc
    by_cases h1 : d.label ∈ seen
    · rw [if_pos h1] at hc
      exact ih seen cnt c hc
    · rw [if_neg h1] at hc
      by_cases h2 : k ≤ cnt + 1
      · rw [if_pos h2] at hc
        rcases List.mem_singleton.mp hc with rfl
        exact h1
      · rw [if_neg h2] at hc
        rcases List.mem_cons.mp hc with rfl | hmem
        · exact h1
        · intro habs
          exact ih _ _ c hmem (List.mem_cons_of_mem _ habs)

/-- The labels kept by the deduplication loop are pairwise distinct. -/
theorem dedupTake_nodup (k : ℕ) (l : List Cand) (seen : List ℕ) (cnt : ℕ) :
    ((dedupTake k l seen cnt).map Cand.label).Nodup := by
  induction l generalizing seen cnt with
  | nil => simp [dedupTake]
  | cons d rest ih =>
    simp only [dedupTake]
    by_cases h1 : d.label ∈ seen
    · rw [if_pos h1]
      exact ih seen cnt
    · rw [if_neg h1]
      by_cases h2 : k ≤ cnt + 1
      · rw [if_pos h2]
        simp
      · rw [if_neg h2]
        rw [List.map_cons, List.nodup_cons]
        refine ⟨?_, ih _ _⟩
        intro habs
        rcases List.mem_map.mp habs with ⟨c, hc, hlab⟩
        exact dedupTake_not_seen k rest (d.label :: seen) (cnt + 1) c hc
          (hlab ▸ List.mem_cons_self _ _)

/-- On a distance-sorted input, every kept element realises the smallest
distance among the input occurrences of its label (it is the first
occurrence after sorting). -/
theorem dedupTake_min_dist (k : ℕ) (l : List Cand) (seen : List ℕ) (cnt : ℕ)
    (hs : l.Pairwise (fun a b => a.dist ≤ b.dist)) :
    ∀ c ∈ dedupTake k l seen cnt, ∀ c2 ∈ l, c2.label = c.label → c.dist ≤ c2.dist := by
  induction l generalizing seen cnt with
  | nil => simp [dedupTake]
  | cons d rest ih =>
    have hpc := List.pairwise_cons.mp hs
    have hd := hpc.1
    have htl := hpc.2
    intro c hc c2 hc2 hlab
    simp only [dedupTake] at hc
    by_cases h1 : d.label ∈ seen
    · rw [if_pos h1] at hc
      rcases List.mem_cons.mp hc2 with heq | hmem2
      · have hns := dedupTake_not_seen k rest seen cnt c hc
        rw [heq] at hlab
        exact absurd (hlab ▸ h1) hns
      · exact ih seen cnt htl c hc c2 hmem2 hlab
    · rw [if_neg h1] at hc
      by_cases h2 : k ≤ cnt + 1
      · rw [if_pos h2] at hc
        have hceq := List.mem_singleton.mp hc
        rcases List.mem_cons.mp hc2 with heq | hmem2
        · simp [hceq, heq]
        · rw [hceq]
          exact hd c2 hmem2
      · rw [if_neg h2] at hc
        rcases List.mem_cons.mp hc with heq | hmem
        · rcases List.mem_cons.mp hc2 with heq2 | hmem2
          · simp [heq, heq2]
          · rw [heq]
            exact hd c2 hmem2
        · rcases List.mem_cons.mp hc2 with heq2 | hmem2
          · have hns := dedupTake_not_seen k rest (d.label :: seen) (cnt + 1) c hmem
            have hmm : c.label ∈ d.label :: seen := by
              rw [heq2] at hlab
              rw [← hlab]
              exact List.mem_cons_self _ _
            exact absurd hmm hns
          · exact ih _ _ htl c hmem c2 hmem2 hlab

/-- Length of the deduplicated prefix: with cnt entries already
collected, the loop keeps min (k - cnt) d more elements, where d is the
number of distinct labels of the input that are not yet seen. -/
theorem dedupTake_length (k : ℕ) (l : List Cand) (seen : List ℕ) (cnt : ℕ)
    (hck : cnt < k) :
    (dedupTake k l seen cnt).length =
      min (k - cnt) (((l.map Cand.label).toFinset \ seen.toFinset).card) := by
  induction l generalizing seen cnt with
  | nil =>
    simp [dedupTake]
  | cons d rest ih =>
    simp only [dedupTake, List.map_cons, List.toFinset_cons]
    by_cases h1 : d.label ∈ seen
    · rw [if_pos h1, Finset.insert_sdiff_of_mem _ (List.mem_toFinset.mpr h1)]
      exact ih seen cnt hck
    · have h1f : d.label ∉ seen.toFinset := fun h => h1 (List.mem_toFinset.mp h)
      rw [if_neg h1, Finset.insert_sdiff_of_not_mem _ h1f]
      by_cases h2 : k ≤ cnt + 1
      · rw [if_pos h2]
        have hcard : 1 ≤ (Insert.insert d.label
            ((rest.map Cand.label).toFinset \ seen.toFinset)).card :=
          Finset.card_pos.mpr ⟨d.label, Finset.mem_insert_self _ _⟩
        have hk1 : k - cnt = 1 := by omega
        rw [hk1, List.length_singleton]
        omega
      · rw [if_neg h2]
        have hrec := ih (d.label :: seen) (cnt + 1) (by omega)
        have hset : (rest.map Cand.label).toFinset \ (d.label :: seen).toFinset =
            ((rest.map Cand.label).toFinset \ seen.toFinset).erase d.label := by
          ext x
          simp only [Finset.mem_sdiff, List.toFinset_cons, Finset.mem_insert,
            Finset.mem_erase]
          tauto
        have hins : Insert.insert d.label ((rest.map Cand.label).toFinset \ seen.toFinset) =
            Insert.insert d.label
              (((rest.map Cand.label).toFinset \ seen.toFinset).erase d.label) := by
          ext x
          simp only [Finset.mem_insert, Finset.mem_erase]
          tauto
        have hcard2 : (Insert.insert d.label
            ((rest.map Cand.label).toFinset \ seen.toFinset)).card =
            (((rest.map Cand.label).toFinset \ seen.toFinset).erase d.label).card + 1 := by
          rw [hins]
          exact Finset.card_insert_of_not_mem (fun h => (Finset.mem_erase.mp h).1 rfl)
        rw [List.length_cons, hrec, hset, hcard2]
        omega

/-- The output array always has exactly k slots. -/
theorem padTo_length (k : ℕ) (uniq : List Cand) : (padTo k uniq).length = k := by
  simp [padTo]

/-- An in-range slot holds the corresponding deduplicated result. -/
theorem padTo_get_result (k : ℕ) (uniq : List Cand) (i : ℕ) (hik : i < k)
    (c : Cand) (hc : uniq[i]? = some c) :
    (padTo k uniq)[i]? = some (c.label, c.dist) := by
  simp [padTo, List.getElem?_map, List.getElem?_range hik, hc]

/-- An out-of-range slot holds label 0 and distance FLT_MAX. -/
theorem padTo_get_pad (k : ℕ) (uniq : List Cand) (i : ℕ) (hik : i < k)
    (hlen : uniq.length ≤ i) :
    (padTo k uniq)[i]? = some (0, (⊤ : Dist)) := by
  have : uniq[i]? = none := List.getElem?_eq_none hlen
  simp [padTo, List.getElem?_map, List.getElem?_range hik, this]

/-- Every memory-substrate candidate survives the tombstone filter. -/
theorem mem_memCandidates_not_deleted (st : DDIState) (mem : List (ℕ × Dist)) :
    ∀ c ∈ memCandidates st mem, c.label ∉ st.deletedLabels := by
  intro c hc
  rcases List.mem_filterMap.mp hc with ⟨p, _, he⟩
  by_cases h : p.1 ∈ st.deletedLabels
  · simp [h] at he
  · rw [if_neg h] at he
    cases he
    exact h

/-- Every disk-substrate candidate survives the tombstone filter. -/
theorem mem_diskCandidates_not_deleted (st : DDIState) (o : SearchOracle) (k : ℕ) :
    ∀ c ∈ diskCandidates st o k, c.label ∉ st.deletedLabels := by
  intro c hc
  rcases List.mem_filterMap.mp hc with ⟨p, _, he⟩
  split at he
  · cases he
  · split at he
    · cases he
    · split at he
      · cases he
      · split at he
        · cases he
        · rename_i h3
          cases he
          exact h3

/-- No candidate that reaches the sort carries a deleted label. -/
theorem mem_candidateList_not_deleted (st : DDIState) (o : SearchOracle) (k : ℕ) :
    ∀ c ∈ candidateList st o k, c.label ∉ st.deletedLabels := by
  intro c hc
  rcases List.mem_append.mp hc with h | h
  · exact mem_memCandidates_not_deleted st o.memResults c h
  · exact mem_diskCandidates_not_deleted st o k c h

/-- Every id stored by the map-building loop stays below the running row
index. -/
theorem buildLabelMapAux_lt (entries : List (Option ℕ)) :
    ∀ (m : ℕ → Option ℕ) (i : ℕ), (∀ a v, m a = some v → v < i) →
      ∀ a v, buildLabelMapAux m i entries a = some v → v < i + entries.length := by
  induction entries with
  | nil =>
    intro m i hm a v h
    simp only [buildLabelMapAux] at h
    have := hm a v h
    simp only [List.length_nil]
    omega
  | cons e rest ih =>
    intro m i hm a v h
    cases e with
    | none =>
      simp only [buildLabelMapAux] at h
      have := ih m (i + 1) (fun a v hv => Nat.lt_succ_of_lt (hm a v hv)) a v h
      simp only [List.length_cons]
      omega
    | some L =>
      simp only [buildLabelMapAux] at h
      have hbound : ∀ a v, mapUpd m L i a = some v → v < i + 1 := by
        intro a v hv
        unfold mapUpd at hv
        split at hv
        · cases hv
          omega
        · exact Nat.lt_succ_of_lt (hm a v hv)
      have := ih (mapUpd m L i) (i + 1) hbound a v h
      simp only [List.length_cons]
      omega

/-- The map-building loop yields an injective map: each overwrite stores
a row index strictly larger than every id already present. -/
theorem buildLabelMapAux_inj (entries : List (Option ℕ)) :
    ∀ (m : ℕ → Option ℕ) (i : ℕ), InjMap m → (∀ a v, m a = some v → v < i) →
      InjMap (buildLabelMapAux m i entries) := by
  induction entries with
  | nil =>
    intro m i hinj _
    exact hinj
  | cons e rest ih =>
    intro m i hinj hlt
    cases e with
    | none =>
      exact ih m (i + 1) hinj (fun a v hv => Nat.lt_succ_of_lt (hlt a v hv))
    | some L =>
      refine ih (mapUpd m L i) (i + 1) ?_ ?_
      · intro a b v ha hb
        unfold mapUpd at ha hb
        split at ha
        · rename_i hA
          cases ha
          split at hb
          · rename_i hB
            rw [hA, hB]
          · have := hlt b _ hb
            omega
        · rename_i hA
          split at hb
          · rename_i hB
            cases hb
            have := hlt a _ ha
            omega
          · exact hinj a b v ha hb
      · intro a v hv
        unfold mapUpd at hv
        split at hv
        · cases hv
          omega
        · exact Nat.lt_succ_of_lt (hlt a v hv)

/-- _disk_label_to_id as built by load_disk_index is injective. -/
theorem buildLabelMap_inj (entries : List (Option ℕ)) : InjMap (buildLabelMap entries) := by
  refine buildLabelMapAux_inj entries _ 0 ?_ ?_
  · intro a b i ha _
    cases ha
  · intro a v hv
    cases hv

/-- merge never changes _deleted_labels. -/
theorem merge_deletedLabels (st : DDIState) (o : MergeOracle) :
    (merge st o).deletedLabels = st.deletedLabels := by
  by_cases hb : o.buildOk = true <;> simp [merge, hb]

/-- merge preserves the threshold constant. -/
theorem merge_threshold (st : DDIState) (o : MergeOracle) :
    (merge st o).threshold = st.threshold := by
  by_cases hb : o.buildOk = true <;> simp [merge, hb]

/-- After a merge whose rebuild and reload both succeeded, the label map
is the one rebuilt from the reloaded label table. -/
theorem merge_map_rebuilt (st : DDIState) (o : MergeOracle)
    (hb : o.buildOk = true) (hl : o.load.ok = true) :
    (merge st o).diskLabelToId = buildLabelMap o.load.entries := by
  simp [merge, hb, hl]

/-- After a successful merge, _disk_deleted_ids is exactly the
re-projection of _deleted_labels through the post-merge map. -/
theorem merge_ids_reproject (st : DDIState) (o : MergeOracle) (hb : o.buildOk = true) :
    (merge st o).diskDeletedIds =
      st.deletedLabels.biUnion (fun L => ((merge st o).diskLabelToId L).toFinset) := by
  simp [merge, hb]

/-- remove preserves the maintained invariant. -/
theorem remove_stateInv (st : DDIState) (L : ℕ) (h : StateInv st) :
    StateInv (remove st L) := by
  obtain ⟨ht, hinj⟩ := h
  refine ⟨?_, ?_⟩
  · intro L2 hL2 i hmap
    have hL2set : L2 ∈ Insert.insert L st.deletedLabels := hL2
    have hmap2 : st.diskLabelToId L2 = some i := hmap
    show i ∈ (remove st L).diskDeletedIds
    cases hmL : st.diskLabelToId L with
    | none =>
      simp only [remove, hmL]
      rcases Finset.mem_insert.mp hL2set with heq | hold
      · rw [heq] at hmap2
        rw [hmap2] at hmL
        cases hmL
      · exact ht L2 hold i hmap2
    | some j =>
      simp only [remove, hmL]
      rcases Finset.mem_insert.mp hL2set with heq | hold
      · rw [heq] at hmap2
        rw [hmap2] at hmL
        cases hmL
        exact Finset.mem_insert_self _ _
      · exact Finset.mem_insert_of_mem (ht L2 hold i hmap2)
  · exact hinj

/-- The resurrection step preserves the maintained invariant: erasing the
resurrected label's id cannot orphan another deleted label because the
map is injective. -/
theorem resurrect_stateInv (st : DDIState) (L : ℕ) (h : StateInv st) :
    StateInv (resurrect st L) := by
  obtain ⟨ht, hinj⟩ := h
  by_cases hdel : L ∈ st.deletedLabels
  · refine ⟨?_, ?_⟩
    · intro L2 hL2 i hmap
      have hL2e : L2 ∈ st.deletedLabels.erase L := by
        simpa [resurrect, hdel] using hL2
      have hmap2 : st.diskLabelToId L2 = some i := by
        simpa [resurrect, hdel] using hmap
      have hne : L2 ≠ L := (Finset.mem_erase.mp hL2e).1
      have hold : L2 ∈ st.deletedLabels := (Finset.mem_erase.mp hL2e).2
      have hin : i ∈ st.diskDeletedIds := ht L2 hold i hmap2
      show i ∈ (resurrect st L).diskDeletedIds
      cases hmL : st.diskLabelToId L with
      | none =>
        simp only [resurrect, if_pos hdel, hmL]
        exact hin
      | some j =>
        simp only [resurrect, if_pos hdel, hmL]
        refine Finset.mem_erase.mpr ⟨?_, hin⟩
        intro heq
        have hmLi : st.diskLabelToId L = some i := by
          rw [heq]
          exact hmL
        exact hne (hinj L2 L i hmap2 hmLi)
    · have hmapeq : (resurrect st L).diskLabelToId = st.diskLabelToId := by
        simp [resurrect, hdel]
      rw [hmapeq]
      exact hinj
  · simp only [resurrect, if_neg hdel]
    exact ⟨ht, hinj⟩

/-- merge preserves the maintained invariant. -/
theorem merge_stateInv (st : DDIState) (o : MergeOracle) (h : StateInv st) :
    StateInv (merge st o) := by
  obtain ⟨ht, hinj⟩ := h
  by_cases hb : o.buildOk = true
  · refine ⟨?_, ?_⟩
    · intro L2 hL2 i hmap
      have hL2' : L2 ∈ st.deletedLabels := by
        rwa [merge_deletedLabels] at hL2
      show i ∈ (merge st o).diskDeletedIds
      rw [merge_ids_reproject st o hb]
      refine Finset.mem_biUnion.mpr ⟨L2, hL2', ?_⟩
      rw [hmap]
      simp
    · by_cases hl : o.load.ok = true
      · rw [merge_map_rebuilt st o hb hl]
        exact buildLabelMap_inj _
      · have hmapeq : (merge st o).diskLabelToId = st.diskLabelToId := by
          simp [merge, hb, hl]
        rw [hmapeq]
        exact hinj
  · refine ⟨?_, ?_⟩
    · intro L2 hL2 i hmap
      have h1 : L2 ∈ st.deletedLabels := by simpa [merge, hb] using hL2
      have h2 : st.diskLabelToId L2 = some i := by simpa [merge, hb] using hmap
      have h3 := ht L2 h1 i h2
      simpa [merge, hb] using h3
    · have hmapeq : (merge st o).diskLabelToId = st.diskLabelToId := by
        simp [merge, hb]
      rw [hmapeq]
      exact hinj

/-- The state insert produces: the resurrected state with the fresh point
count, merged when the threshold was reached. -/
theorem insert_fst (st : DDIState) (L : ℕ) (o : InsertOracle) :
    (insert st L o).1 =
      if st.threshold ≤ o.numAfter
      then merge { resurrect st L with memNum := o.numAfter } o.mergeOr
      else { resurrect st L with memNum := o.numAfter } := by
  simp [insert]

/-- The trace insert produces: the failure log iff the code was non-zero,
the threshold comparison on every path, the merge trigger iff the point
count reached the threshold. -/
theorem insert_snd (st : DDIState) (L : ℕ) (o : InsertOracle) :
    (insert st L o).2 =
      { loggedFailure := o.res != 0
        thresholdChecked := true
        triggeredMerge := decide (st.threshold ≤ o.numAfter) } := by
  simp [insert]

/-- insert preserves the maintained invariant. -/
theorem insert_stateInv (st : DDIState) (L : ℕ) (o : InsertOracle) (h : StateInv st) :
    StateInv (insert st L o).1 := by
  have h1 : StateInv (resurrect st L) := resurrect_stateInv st L h
  have h2 : StateInv { resurrect st L with memNum := o.numAfter } := ⟨h1.1, h1.2⟩
  rw [insert_fst]
  by_cases htr : st.threshold ≤ o.numAfter
  · rw [if_pos htr]
    exact merge_stateInv _ _ h2
  · rw [if_neg htr]
    exact h2

/-- A deleted label survives an insert of a different label. -/
theorem insert_deleted_persist (st : DDIState) (L L2 : ℕ) (o : InsertOracle)
    (hne : L ≠ L2) (hmem : L ∈ st.deletedLabels) :
    L ∈ (insert st L2 o).1.deletedLabels := by
  have hres : L ∈ (resurrect st L2).deletedLabels := by
    by_cases hdel : L2 ∈ st.deletedLabels
    · simp only [resurrect, if_pos hdel]
      exact Finset.mem_erase.mpr ⟨hne, hmem⟩
    · simp only [resurrect, if_neg hdel]
      exact hmem
  rw [insert_fst]
  by_cases htr : st.threshold ≤ o.numAfter
  · rw [if_pos htr, merge_deletedLabels]
    exact hres
  · rw [if_neg htr]
    exact hres

/-- A deleted label survives any public operation that is not an insert
of that same label. -/
theorem step_deleted_persist (st : DDIState) (L : ℕ) (ev : Ev)
    (hmem : L ∈ st.deletedLabels) (hne : ∀ o, ev ≠ Ev.ins L o) :
    L ∈ (step st ev).deletedLabels := by
  cases ev with
  | ins L2 o =>
    have hll : L ≠ L2 := by
      intro h
      exact hne o (by rw [h])
    exact insert_deleted_persist st L L2 o hll hmem
  | rem L2 =>
    exact Finset.mem_insert_of_mem hmem
  | mrg o =>
    show L ∈ (merge st o).deletedLabels
    rw [merge_deletedLabels]
    exact hmem

/-- A deleted label survives any run of public operations that contains
no insert of that same label. -/
theorem run_deleted_persist (evs : List Ev) :
    ∀ (st : DDIState) (L : ℕ), L ∈ st.deletedLabels → (∀ o, Ev.ins L o ∉ evs) →
      L ∈ (run st evs).deletedLabels := by
  induction evs with
  | nil =>
    intro st L h _
    exact h
  | cons e rest ih =>
    intro st L h hno
    have h1 : L ∈ (step st e).deletedLabels := by
      refine step_deleted_persist st L e h ?_
      intro o heq
      apply hno o
      rw [← heq]
      exact List.mem_cons_self e rest
    exact ih (step st e) L h1 (fun o hmem => hno o (List.mem_cons_of_mem e hmem))

/-- The fixed-up existing-labels vector has exactly the pre-append point
count of the base file. -/
theorem padLabels_length (parsed : List ℕ) (ip : ℕ) : (padLabels parsed ip).length = ip := by
  unfold padLabels
  split
  · rename_i h
    simp
    omega
  · rename_i h
    simp
    omega

/-- The labels file written by merge has exactly initialPoints plus
num_active lines. -/
theorem mergeLabelsLines_length (parsed : List ℕ) (ip : ℕ) (tags : List ℕ) (na : ℕ) :
    (mergeLabelsLines parsed ip tags na).length = ip + na := by
  simp [mergeLabelsLines, mergeTagReads, padLabels_length]

/-- When the saved tags cover num_active entries, the tag section of the
written labels file is exactly the first num_active memory tags. -/
theorem mergeTagReads_all (tags : List ℕ) (na : ℕ) (h : na ≤ tags.length) :
    mergeTagReads tags na = (tags.take na).map some := by
  unfold mergeTagReads
  apply List.ext_getElem?
  intro i
  by_cases hi : i < na
  · have hit : i < tags.length := lt_of_lt_of_le hi h
    rw [List.getElem?_map, List.getElem?_range hi, List.getElem?_map]
    rw [List.getElem?_take]
    simp [hi, List.getElem?_eq_getElem hit]
  · have h1 : (List.range na).length ≤ i := by
      simpa using Nat.le_of_not_lt hi
    have h2 : ((tags.take na).map some).length ≤ i := by
      simp only [List.length_map, List.length_take]
      omega
    rw [List.getElem?_map, List.getElem?_eq_none h1, List.getElem?_eq_none h2]
    rfl

/-- Every memory-tag read of the merge loops is in bounds once the saved
tags file records at least num_active entries. -/
theorem mergeTagReads_inBounds (tags : List ℕ) (na : ℕ) (h : na ≤ tags.length) :
    ∀ x ∈ mergeTagReads tags na, x.isSome := by
  intro x hx
  rcases List.mem_map.mp hx with ⟨i, hi, hx_eq⟩
  have hi2 : i < na := List.mem_range.mp hi
  have hit : i < tags.length := lt_of_lt_of_le hi2 h
  rw [← hx_eq, List.getElem?_eq_getElem hit]
  rfl

/-- Every flat-buffer read of the data-append loop is in bounds once the
saved data file records at least num_active rows of mem_dim elements. -/
theorem mergeDataReads_inBounds (data : List ℤ) (dim na memN : ℕ)
    (hle : na ≤ memN) (hlen : data.length = memN * dim) :
    ∀ row ∈ mergeDataReads data dim na, ∀ x ∈ row, x.isSome := by
  intro row hrow x hx
  rcases List.mem_map.mp hrow with ⟨i, hi, hrow_eq⟩
  have hi2 : i < na := List.mem_range.mp hi
  rw [← hrow_eq] at hx
  rcases List.mem_map.mp hx with ⟨j, hj, hx_eq⟩
  have hj2 : j < dim := List.mem_range.mp hj
  have hb : i * dim + j < data.length := by
    rw [hlen]
    have h1 : i * dim + j < (i + 1) * dim := by
      rw [Nat.succ_mul]
      omega
    have h2 : (i + 1) * dim ≤ memN * dim := Nat.mul_le_mul_right dim (by omega)
    omega
  rw [← hx_eq, List.getElem?_eq_getElem hb]
  rfl

/-- The macro's rounding, written as the least-multiple formula of the
spec's align8. -/
theorem roundUp_eight (d : ℕ) : roundUp d 8 = 8 * ((d + 7) / 8) := by
  unfold roundUp
  by_cases h : d % 8 = 0 <;> simp [h] <;> omega

/-- The constructor throws exactly when the user threshold is 0 and the
budget is not positive. -/
theorem ctorThreshold_error_iff (mt : ℕ) (G pp : ℚ) :
    ctorThreshold mt G pp = CtorResult.configError ↔ (mt = 0 ∧ ¬ 0 < G) := by
  by_cases h0 : mt = 0
  · by_cases hG : 0 < G
    · simp [ctorThreshold, h0, hG]
    · simp [ctorThreshold, h0, hG]
  · simp [ctorThreshold, h0]

/-- The derived threshold equals the floor of G·2^30·0.2 divided by the
per-point usage (1024^3 = 2^30 and 0.2 = 1/5 over exact rationals). -/
theorem ctorThreshold_formula (G pp : ℚ) (hG : 0 < G) :
    ctorThreshold 0 G pp = CtorResult.ok (Int.toNat ⌊G * 2 ^ 30 * (1 / 5) / pp⌋) := by
  have harg : G * 1024 * 1024 * 1024 * (1 / 5) / pp = G * 2 ^ 30 * (1 / 5) / pp := by
    ring_nf
  simp only [ctorThreshold, if_pos rfl, if_pos hG, harg]
  simp

/-- merge's labels-file loop stops at the first line that fails
unsigned-integer conversion, discarding that line and every later one. -/
theorem parseLabelsMerge_break (l : String) (hne : l ≠ "") (hnone : stoulOpt l = none) :
    ∀ pre post : List String,
      parseLabelsMerge (pre ++ l :: post) = parseLabelsMerge pre := by
  intro pre
  induction pre with
  | nil =>
    intro post
    simp [parseLabelsMerge, hne, hnone]
  | cons p ps ih =>
    intro post
    by_cases hp : p = ""
    · simp only [List.cons_append, parseLabelsMerge, if_pos hp]
      exact ih post
    · cases hsp : stoulOpt p with
      | none =>
        simp only [List.cons_append, parseLabelsMerge, if_neg hp, hsp]
      | some v =>
        simp only [List.cons_append, parseLabelsMerge, if_neg hp, hsp]
        congr 1
        exact ih post

/-- load_disk_index's labels-file loop skips an unparseable or empty line
and keeps every later line. -/
theorem parseLabelsLoad_skip (l : String) (hl : l = "" ∨ stoulOpt l = none) :
    ∀ pre post : List String,
      parseLabelsLoad (pre ++ l :: post) = parseLabelsLoad pre ++ parseLabelsLoad post := by
  intro pre post
  unfold parseLabelsLoad
  rw [List.filterMap_append, List.filterMap_cons]
  rcases hl with h | h
  · rw [if_pos h]
  · by_cases he : l = ""
    · rw [if_pos he]
    · rw [if_neg he, h]
      rfl

/-- With a null disk index every disk slot carries the FLT_MAX sentinel,
so the disk substrate contributes no candidates. -/
theorem diskCandidates_not_loaded (st : DDIState) (o : SearchOracle) (k : ℕ)
    (hd : st.diskLoaded = false) : diskCandidates st o k = [] := by
  have hslots : diskSlots st o k = List.replicate k (0, (⊤ : Dist)) := by
    unfold diskSlots
    rw [hd]
    simp
  unfold diskCandidates
  rw [hslots]
  simp [List.filterMap_replicate]

/-- Search over an empty candidate list yields k padding slots. -/
theorem searchOut_nil (k : ℕ) : searchOut [] k = List.replicate k (0, (⊤ : Dist)) := by
  unfold searchOut padTo
  apply List.ext_getElem?
  intro i
  rw [List.getElem?_map, List.getElem?_replicate]
  by_cases hi : i < k
  · rw [List.getElem?_range hi, if_pos hi]
    rfl
  · rw [List.getElem?_eq_none (by simpa using Nat.le_of_not_lt hi), if_neg hi]
    rfl

/-- Claim C1, as stated, fails on a concrete trace: starting from a
state whose disk index holds label 7 at row 0, remove(7) tombstones the
label, then insert(p, 7) is called and its memory-index insert_point
fails (code -1, so no insert succeeded); the resurrection step at lines
161-169 has nevertheless already cleared the tombstone, and the next
search's only admissible output (its single candidate is the stale disk
row for label 7) returns label 7 in slot 0. -/
theorem claim1_counterexample :
    cexInsertOracle.res ≠ 0 ∧
    7 ∈ (remove cexState 7).deletedLabels ∧
    sortOk
      (candidateList ((insert (remove cexState 7) 7 cexInsertOracle).1) cexSearchOracle 1)
      [⟨7, ((5 : ℚ) : Dist)⟩] ∧
    searchOut [⟨7, ((5 : ℚ) : Dist)⟩] 1 = [(7, ((5 : ℚ) : Dist))] :=
  ⟨by decide, by decide, by decide, by decide⟩

/-- Claim C1 (amended): after remove(L), no subsequent search returns L
among its kept (non-padding) results until an insert(·, L) is invoked —
whether or not the memory-index insert succeeds; equivalently, in every
state the labels search keeps are disjoint from _deleted_labels, and L
stays in _deleted_labels across every run of public operations that
contains no insert of L. -/
theorem claim1_amended_search_excludes_removed (st : DDIState) (L : ℕ) (evs : List Ev)
    (hno : ∀ o, Ev.ins L o ∉ evs) :
    L ∈ (run (remove st L) evs).deletedLabels ∧
    (∀ (o : SearchOracle) (k : ℕ) (sorted : List Cand),
       sortOk (candidateList (run (remove st L) evs) o k) sorted →
       ∀ c ∈ dedupTake k sorted [] 0, c.label ≠ L) ∧
    (∀ (st2 : DDIState) (o : SearchOracle) (k : ℕ) (sorted : List Cand),
       sortOk (candidateList st2 o k) sorted →
       ∀ c ∈ dedupTake k sorted [] 0, c.label ∉ st2.deletedLabels) := by
  have hgen : ∀ (st2 : DDIState) (o : SearchOracle) (k : ℕ) (sorted : List Cand),
      sortOk (candidateList st2 o k) sorted →
      ∀ c ∈ dedupTake k sorted [] 0, c.label ∉ st2.deletedLabels := by
    intro st2 o k sorted hsort c hc
    have hmem : c ∈ sorted := (dedupTake_sublist k sorted [] 0).subset hc
    have hmem2 : c ∈ candidateList st2 o k := hsort.1.mem_iff.mp hmem
    exact mem_candidateList_not_deleted st2 o k c hmem2
  have hdel : L ∈ (run (remove st L) evs).deletedLabels :=
    run_deleted_persist evs (remove st L) L (Finset.mem_insert_self _ _) hno
  refine ⟨hdel, ?_, hgen⟩
  intro o k sorted hsort c hc heq
  refine hgen _ o k sorted hsort c hc ?_
  rw [heq]
  exact hdel

/-- Claim C1 amended witness: after remove(7) on the concrete state and
a run holding one unrelated remove, label 7 is still tombstoned and no
admissible search output keeps it. -/
theorem claim1_witness :
    (∀ o : InsertOracle, Ev.ins 7 o ∉ [Ev.rem 3]) ∧
    (7 ∈ (run (remove cexState 7) [Ev.rem 3]).deletedLabels ∧
     (∀ (o : SearchOracle) (k : ℕ) (sorted : List Cand),
        sortOk (candidateList (run (remove cexState 7) [Ev.rem 3]) o k) sorted →
        ∀ c ∈ dedupTake k sorted [] 0, c.label ≠ 7) ∧
     (∀ (st2 : DDIState) (o : SearchOracle) (k : ℕ) (sorted : List Cand),
        sortOk (candidateList st2 o k) sorted →
        ∀ c ∈ dedupTake k sorted [] 0, c.label ∉ st2.deletedLabels)) := by
  have h : ∀ o : InsertOracle, Ev.ins 7 o ∉ [Ev.rem 3] := by
    intro o hmem
    simp at hmem
  exact ⟨h, claim1_amended_search_excludes_removed cexState 7 [Ev.rem 3] h⟩

/-- Claim C2: starting from any state satisfying the maintained
invariant (spec invariant 1 plus injectivity of the loaded map, which
load_disk_index guarantees), every public operation preserves it; after
a successful merge, _disk_deleted_ids is exactly the re-projection of
_deleted_labels through the post-merge map, which on a successful
reload is the rebuilt map; and every freshly constructed state
satisfies the invariant. -/
theorem claim2_tombstone_invariant (st : DDIState) (h : StateInv st) :
    (∀ L, StateInv (remove st L)) ∧
    (∀ (L : ℕ) (o : InsertOracle), StateInv (insert st L o).1) ∧
    (∀ o : MergeOracle, StateInv (merge st o)) ∧
    (∀ o : MergeOracle, o.buildOk = true →
       (merge st o).diskDeletedIds =
         st.deletedLabels.biUnion (fun L => ((merge st o).diskLabelToId L).toFinset)) ∧
    (∀ o : MergeOracle, o.buildOk = true → o.load.ok = true →
       (merge st o).diskLabelToId = buildLabelMap o.load.entries) ∧
    (∀ (t : ℕ) (lo : LoadOracle), StateInv (initState t lo)) := by
  refine ⟨fun L => remove_stateInv st L h,
          fun L o => insert_stateInv st L o h,
          fun o => merge_stateInv st o h,
          fun o hb => merge_ids_reproject st o hb,
          fun o hb hl => merge_map_rebuilt st o hb hl, ?_⟩
  intro t lo
  refine ⟨?_, ?_⟩
  · intro L2 hL2 i hmap
    simp [initState] at hL2
  · by_cases hl : lo.ok = true
    · have hmapeq : (initState t lo).diskLabelToId = buildLabelMap lo.entries := by
        simp [initState, hl]
      rw [hmapeq]
      exact buildLabelMap_inj _
    · have hmapeq : (initState t lo).diskLabelToId = (fun _ => none) := by
        simp [initState, hl]
      rw [hmapeq]
      intro a b i ha _
      cases ha

/-- Claim C2 witness: the freshly constructed memory-only state
satisfies the invariant, and the theorem applies to it. -/
theorem claim2_witness :
    StateInv emptyInit ∧
    ((∀ L, StateInv (remove emptyInit L)) ∧
     (∀ (L : ℕ) (o : InsertOracle), StateInv (insert emptyInit L o).1) ∧
     (∀ o : MergeOracle, StateInv (merge emptyInit o)) ∧
     (∀ o : MergeOracle, o.buildOk = true →
        (merge emptyInit o).diskDeletedIds =
          emptyInit.deletedLabels.biUnion
            (fun L => ((merge emptyInit o).diskLabelToId L).toFinset)) ∧
     (∀ o : MergeOracle, o.buildOk = true → o.load.ok = true →
        (merge emptyInit o).diskLabelToId = buildLabelMap o.load.entries) ∧
     (∀ (t : ℕ) (lo : LoadOracle), StateInv (initState t lo))) := by
  have h : StateInv emptyInit := by
    constructor
    · intro L2 hL2 i hmap
      simp [emptyInit, initState] at hL2
    · intro a b i ha _
      cases ha
  exact ⟨h, claim2_tombstone_invariant emptyInit h⟩

/-- Claim C3, as stated, fails on a concrete call: insert_point returns
-1 yet insert does not return early — it logs, still evaluates the
threshold comparison, and (the point count 99 being at the threshold
10) triggers a merge.  The source's failure branch at lines 173-175 has
no return statement. -/
theorem claim3_counterexample :
    c3Oracle.res ≠ 0 ∧
    (insert cexState 5 c3Oracle).2 =
      { loggedFailure := true, thresholdChecked := true, triggeredMerge := true } :=
  ⟨by decide, by decide⟩

/-- Claim C3 (amended): when the memory-index insert fails, insert logs
the failure but continues: the pre-merge state change is exactly the
resurrection step plus the point-count refresh, the threshold check is
still evaluated, and a merge is triggered exactly when the point count
has reached the threshold. -/
theorem claim3_amended_failed_insert (st : DDIState) (L : ℕ) (o : InsertOracle)
    (hres : o.res ≠ 0) :
    (insert st L o).2.loggedFailure = true ∧
    (insert st L o).2.thresholdChecked = true ∧
    ((insert st L o).2.triggeredMerge = true ↔ st.threshold ≤ o.numAfter) ∧
    (¬ st.threshold ≤ o.numAfter →
       (insert st L o).1 = { resurrect st L with memNum := o.numAfter }) ∧
    (st.threshold ≤ o.numAfter →
       (insert st L o).1 = merge { resurrect st L with memNum := o.numAfter } o.mergeOr) := by
  refine ⟨?_, ?_, ?_, ?_, ?_⟩
  · rw [insert_snd]
    simpa using hres
  · rw [insert_snd]
  · rw [insert_snd]
    simp
  · intro hle
    rw [insert_fst, if_neg hle]
  · intro hle
    rw [insert_fst, if_pos hle]

/-- Claim C3 amended witness at a concrete failing insert below the
threshold. -/
theorem claim3_witness :
    cexInsertOracle.res ≠ 0 ∧
    ((insert cexState 5 cexInsertOracle).2.loggedFailure = true ∧
     (insert cexState 5 cexInsertOracle).2.thresholdChecked = true ∧
     ((insert cexState 5 cexInsertOracle).2.triggeredMerge = true ↔
        cexState.threshold ≤ cexInsertOracle.numAfter) ∧
     (¬ cexState.threshold ≤ cexInsertOracle.numAfter →
        (insert cexState 5 cexInsertOracle).1 =
          { resurrect cexState 5 with memNum := cexInsertOracle.numAfter }) ∧
     (cexState.threshold ≤ cexInsertOracle.numAfter →
        (insert cexState 5 cexInsertOracle).1 =
          merge { resurrect cexState 5 with memNum := cexInsertOracle.numAfter }
            cexInsertOracle.mergeOr)) :=
  ⟨by decide, claim3_amended_failed_insert cexState 5 cexInsertOracle (by decide)⟩

/-- Claim C4: for every admissible sort of the candidate list, search
writes exactly k slots; a slot at or beyond min(k, number of distinct
surviving candidate labels) is padding (label 0, distance FLT_MAX);
every earlier slot carries the label and distance of a surviving
candidate; and with no disk index and an empty memory result set every
slot is padding. -/
theorem claim4_search_padding (st : DDIState) (o : SearchOracle) (k : ℕ)
    (sorted : List Cand) (hsort : sortOk (candidateList st o k) sorted) :
    (searchOut sorted k).length = k ∧
    (∀ i, i < k →
       min k (((candidateList st o k).map Cand.label).toFinset.card) ≤ i →
       (searchOut sorted k)[i]? = some (0, (⊤ : Dist))) ∧
    (∀ i, i < min k (((candidateList st o k).map Cand.label).toFinset.card) →
       ∃ c ∈ candidateList st o k, (searchOut sorted k)[i]? = some (c.label, c.dist)) ∧
    (st.diskLoaded = false → o.memResults = [] →
       searchOut sorted k = List.replicate k (0, (⊤ : Dist))) := by
  have hperm : sorted.Perm (candidateList st o k) := hsort.1
  have hfin : (sorted.map Cand.label).toFinset =
      ((candidateList st o k).map Cand.label).toFinset :=
    List.toFinset_eq_of_perm _ _ (hperm.map Cand.label)
  have hlen : ∀ _ : 0 < k, (dedupTake k sorted [] 0).length =
      min k (((candidateList st o k).map Cand.label).toFinset.card) := by
    intro hk
    have h := dedupTake_length k sorted [] 0 hk
    rw [List.toFinset_nil, Finset.sdiff_empty, Nat.sub_zero, hfin] at h
    exact h
  refine ⟨padTo_length k _, ?_, ?_, ?_⟩
  · intro i hik hmin
    have hk : 0 < k := by omega
    apply padTo_get_pad k _ i hik
    rw [hlen hk]
    exact hmin
  · intro i hi
    have hik : i < k := lt_of_lt_of_le hi (Nat.min_le_left _ _)
    have hk : 0 < k := by omega
    have hiu : i < (dedupTake k sorted [] 0).length := by
      rw [hlen hk]
      exact hi
    have hc? := List.getElem?_eq_getElem hiu
    have hcm := List.getElem_mem hiu
    exact ⟨(dedupTake k sorted [] 0)[i],
      hperm.mem_iff.mp ((dedupTake_sublist k sorted [] 0).subset hcm),
      padTo_get_result k _ i hik _ hc?⟩
  · intro hd hm
    have hcand : candidateList st o k = [] := by
      unfold candidateList
      rw [hm, diskCandidates_not_loaded st o k hd]
      simp [memCandidates]
    have hsor : sorted = [] := List.Perm.eq_nil (hcand ▸ hperm)
    rw [hsor]
    exact searchOut_nil k

/-- Claim C4 witness at a concrete state, oracle and admissible sort:
one surviving candidate, k = 2. -/
theorem claim4_witness :
    sortOk (candidateList cexState cexSearchOracle 2) [⟨7, ((5 : ℚ) : Dist)⟩] ∧
    ((searchOut [⟨7, ((5 : ℚ) : Dist)⟩] 2).length = 2 ∧
     (∀ i, i < 2 →
        min 2 (((candidateList cexState cexSearchOracle 2).map Cand.label).toFinset.card) ≤ i →
        (searchOut [⟨7, ((5 : ℚ) : Dist)⟩] 2)[i]? = some (0, (⊤ : Dist))) ∧
     (∀ i, i < min 2 (((candidateList cexState cexSearchOracle 2).map Cand.label).toFinset.card) →
        ∃ c ∈ candidateList cexState cexSearchOracle 2,
          (searchOut [⟨7, ((5 : ℚ) : Dist)⟩] 2)[i]? = some (c.label, c.dist)) ∧
     (cexState.diskLoaded = false → cexSearchOracle.memResults = [] →
        searchOut [⟨7, ((5 : ℚ) : Dist)⟩] 2 = List.replicate 2 (0, (⊤ : Dist)))) :=
  ⟨by decide, claim4_search_padding cexState cexSearchOracle 2 _ (by decide)⟩

/-- Claim C5: for every admissible sort of the candidate list, the kept
results carry pairwise distinct labels, every kept result is a
surviving candidate, and it realises the smallest distance among the
candidates bearing its label (the first occurrence after sorting
wins). -/
theorem claim5_no_duplicate_labels (st : DDIState) (o : SearchOracle) (k : ℕ)
    (sorted : List Cand) (hsort : sortOk (candidateList st o k) sorted) :
    ((dedupTake k sorted [] 0).map Cand.label).Nodup ∧
    (∀ c ∈ dedupTake k sorted [] 0, c ∈ candidateList st o k ∧
       ∀ c2 ∈ candidateList st o k, c2.label = c.label → c.dist ≤ c2.dist) := by
  refine ⟨dedupTake_nodup k sorted [] 0, ?_⟩
  intro c hc
  have hmem : c ∈ sorted := (dedupTake_sublist k sorted [] 0).subset hc
  refine ⟨hsort.1.mem_iff.mp hmem, ?_⟩
  intro c2 hc2 hlab
  have hc2s : c2 ∈ sorted := hsort.1.mem_iff.mpr hc2
  exact dedupTake_min_dist k sorted [] 0 hsort.2 c hc c2 hc2s hlab

/-- Claim C5 witness at a concrete state, oracle and admissible sort. -/
theorem claim5_witness :
    sortOk (candidateList cexState cexSearchOracle 2) [⟨7, ((5 : ℚ) : Dist)⟩] ∧
    (((dedupTake 2 [⟨7, ((5 : ℚ) : Dist)⟩] [] 0).map Cand.label).Nodup ∧
     (∀ c ∈ dedupTake 2 [⟨7, ((5 : ℚ) : Dist)⟩] [] 0,
        c ∈ candidateList cexState cexSearchOracle 2 ∧
        ∀ c2 ∈ candidateList cexState cexSearchOracle 2,
          c2.label = c.label → c.dist ≤ c2.dist)) :=
  ⟨by decide, claim5_no_duplicate_labels cexState cexSearchOracle 2 _ (by decide)⟩

/-- Claim C6, as stated, fails on the code: at a state and oracle whose
candidate list is the memory candidate (label 1) followed by the disk
candidate (label 2) at the same distance 2, the list that places the
disk candidate first is an admissible behaviour of the std::sort call
at line 287 (a distance-sorted permutation — std::sort is not stable
and its comparator only inspects dist), and it does not keep the
equal-distance candidates in insertion order. -/
theorem claim6_counterexample :
    candidateList cexState tieSearchOracle 2 =
      [⟨1, ((2 : ℚ) : Dist)⟩, ⟨2, ((2 : ℚ) : Dist)⟩] ∧
    sortOk (candidateList cexState tieSearchOracle 2)
      [⟨2, ((2 : ℚ) : Dist)⟩, ⟨1, ((2 : ℚ) : Dist)⟩] ∧
    ([⟨2, ((2 : ℚ) : Dist)⟩, ⟨1, ((2 : ℚ) : Dist)⟩] : List Cand) ≠
      [⟨1, ((2 : ℚ) : Dist)⟩, ⟨2, ((2 : ℚ) : Dist)⟩] :=
  ⟨by decide, by decide, by decide⟩

/-- Claim C6 (amended): the combined candidate list is sorted ascending
by distance before deduplication — every admissible output of the
std::sort call is a distance-sorted permutation of the candidate list
and the deduplicated results inherit that order — but the relative
order of equal-distance candidates is unspecified, since std::sort
makes no stability guarantee. -/
theorem claim6_amended_sorted_before_dedup (st : DDIState) (o : SearchOracle) (k : ℕ)
    (sorted : List Cand) (hsort : sortOk (candidateList st o k) sorted) :
    sorted.Pairwise (fun a b => a.dist ≤ b.dist) ∧
    sorted.Perm (candidateList st o k) ∧
    (dedupTake k sorted [] 0).Pairwise (fun a b => a.dist ≤ b.dist) :=
  ⟨hsort.2, hsort.1, List.Pairwise.sublist (dedupTake_sublist k sorted [] 0) hsort.2⟩

/-- Claim C6 amended witness at a concrete admissible sort. -/
theorem claim6_witness :
    sortOk (candidateList cexState tieSearchOracle 2)
      [⟨2, ((2 : ℚ) : Dist)⟩, ⟨1, ((2 : ℚ) : Dist)⟩] ∧
    (([⟨2, ((2 : ℚ) : Dist)⟩, ⟨1, ((2 : ℚ) : Dist)⟩] : List Cand).Pairwise
       (fun a b => a.dist ≤ b.dist) ∧
     ([⟨2, ((2 : ℚ) : Dist)⟩, ⟨1, ((2 : ℚ) : Dist)⟩] : List Cand).Perm
       (candidateList cexState tieSearchOracle 2) ∧
     (dedupTake 2 [⟨2, ((2 : ℚ) : Dist)⟩, ⟨1, ((2 : ℚ) : Dist)⟩] [] 0).Pairwise
       (fun a b => a.dist ≤ b.dist)) :=
  ⟨by decide, claim6_amended_sorted_before_dedup cexState tieSearchOracle 2
    [⟨2, ((2 : ℚ) : Dist)⟩, ⟨1, ((2 : ℚ) : Dist)⟩] (by decide)⟩

/-- Claim C7: the labels file written by merge has exactly N_file +
N_mem lines — the existing labels fixed up to the pre-append point
count (padded with sequential ids or truncated), followed by the first
num_active memory tags in order. -/
theorem claim7_labels_file_lines (parsed : List ℕ) (ip : ℕ) (tags : List ℕ) (na : ℕ) :
    (mergeLabelsLines parsed ip tags na).length = ip + na ∧
    (na ≤ tags.length →
       mergeLabelsLines parsed ip tags na =
         (padLabels parsed ip ++ tags.take na).map some) := by
  refine ⟨mergeLabelsLines_length parsed ip tags na, ?_⟩
  intro h
  unfold mergeLabelsLines
  rw [mergeTagReads_all tags na h, List.map_append]

/-- Claim C7 witness: two existing labels against three initial points
(one pad id), two tags appended — five lines. -/
theorem claim7_witness :
    2 ≤ [8, 9].length ∧
    ((mergeLabelsLines [3, 4] 3 [8, 9] 2).length = 3 + 2 ∧
     (2 ≤ [8, 9].length →
        mergeLabelsLines [3, 4] 3 [8, 9] 2 =
          (padLabels [3, 4] 3 ++ [8, 9].take 2).map some)) :=
  ⟨by decide, claim7_labels_file_lines [3, 4] 3 [8, 9] 2⟩

/-- Claim C8: construction fails (ANNException, the spec's ConfigError)
exactly when the user threshold is 0 and the budget is not positive;
with a zero threshold and a positive budget G the derived threshold is
the floor of G·2^30·0.2 over the per-point usage (the code's
G·1024^3·0.2 rewritten over exact rationals); and the macro rounding
used for the dimension is the align8 least-multiple formula. -/
theorem claim8_ctor_threshold (G pp : ℚ) (hG : 0 < G) :
    (∀ (mt : ℕ) (G2 pp2 : ℚ),
       ctorThreshold mt G2 pp2 = CtorResult.configError ↔ (mt = 0 ∧ ¬ 0 < G2)) ∧
    ctorThreshold 0 G pp = CtorResult.ok (Int.toNat ⌊G * 2 ^ 30 * (1 / 5) / pp⌋) ∧
    (∀ d, roundUp d 8 = 8 * ((d + 7) / 8)) :=
  ⟨fun mt G2 pp2 => ctorThreshold_error_iff mt G2 pp2,
   ctorThreshold_formula G pp hG,
   roundUp_eight⟩

/-- Claim C8 witness at budget 1 GiB and per-point usage 2. -/
theorem claim8_witness :
    (0 : ℚ) < 1 ∧
    ((∀ (mt : ℕ) (G2 pp2 : ℚ),
        ctorThreshold mt G2 pp2 = CtorResult.configError ↔ (mt = 0 ∧ ¬ 0 < G2)) ∧
     ctorThreshold 0 1 2 = CtorResult.ok (Int.toNat ⌊(1 : ℚ) * 2 ^ 30 * (1 / 5) / 2⌋) ∧
     (∀ d, roundUp d 8 = 8 * ((d + 7) / 8))) :=
  ⟨by norm_num, claim8_ctor_threshold 1 2 (by norm_num)⟩

/-- Claim C9: under the precondition that the files saved from the
memory index record at least num_active rows and tags, every buffer
access of merge's append loops is in bounds — the none branch of the
Option-returning indexing is unreachable. -/
theorem claim9_merge_reads_in_bounds (data : List ℤ) (dim na memN : ℕ) (tags : List ℕ)
    (hmem : na ≤ memN) (hlen : data.length = memN * dim) (htags : na ≤ tags.length) :
    (∀ row ∈ mergeDataReads data dim na, ∀ x ∈ row, x.isSome) ∧
    (∀ x ∈ mergeTagReads tags na, x.isSome) :=
  ⟨mergeDataReads_inBounds data dim na memN hmem hlen,
   mergeTagReads_inBounds tags na htags⟩

/-- Claim C9 witness: two rows of dimension two and two tags, all read. -/
theorem claim9_witness :
    (2 ≤ 2 ∧ [(1 : ℤ), 2, 3, 4].length = 2 * 2 ∧ 2 ≤ [5, 6].length) ∧
    ((∀ row ∈ mergeDataReads [(1 : ℤ), 2, 3, 4] 2 2, ∀ x ∈ row, x.isSome) ∧
     (∀ x ∈ mergeTagReads [5, 6] 2, x.isSome)) :=
  ⟨⟨by decide, by decide, by decide⟩,
   claim9_merge_reads_in_bounds [(1 : ℤ), 2, 3, 4] 2 2 2 [5, 6]
     (by decide) (by decide) (by decide)⟩

/-- Claim C10: merge's labels-file parsing stops at the first line that
fails unsigned conversion, discarding it and every later line, whereas
load_disk_index's parsing skips such a line and continues; on the
concrete file "7", "abc", "9" merge parses [7] while reload parses
[7, 9], so the two label sequences differ. -/
theorem claim10_parse_divergence :
    (∀ l : String, l ≠ "" → stoulOpt l = none →
       ∀ pre post, parseLabelsMerge (pre ++ l :: post) = parseLabelsMerge pre) ∧
    (∀ l : String, (l = "" ∨ stoulOpt l = none) →
       ∀ pre post, parseLabelsLoad (pre ++ l :: post) =
         parseLabelsLoad pre ++ parseLabelsLoad post) ∧
    parseLabelsMerge ["7", "abc", "9"] = [7] ∧
    parseLabelsLoad ["7", "abc", "9"] = [7, 9] ∧
    parseLabelsMerge ["7", "abc", "9"] ≠ parseLabelsLoad ["7", "abc", "9"] := by
  refine ⟨?_, ?_, by decide, by decide, by decide⟩
  · intro l h1 h2 pre post
    exact parseLabelsMerge_break l h1 h2 pre post
  · intro l h pre post
    exact parseLabelsLoad_skip l h pre post

/-- Claim C10 witness: the malformed line "abc" truncates merge's parse
and is skipped by load's parse. -/
theorem claim10_witness :
    ("abc" ≠ "" ∧ stoulOpt "abc" = none) ∧
    parseLabelsMerge (["7"] ++ "abc" :: ["9"]) = parseLabelsMerge ["7"] ∧
    parseLabelsLoad (["7"] ++ "abc" :: ["9"]) =
      parseLabelsLoad ["7"] ++ parseLabelsLoad ["9"] :=
  ⟨⟨by decide, by decide⟩,
   claim10_parse_divergence.1 "abc" (by decide) (by decide) ["7"] ["9"],
   claim10_parse_divergence.2.1 "abc" (Or.inr (by decide)) ["7"] ["9"]⟩

end DiskAnnDyn
